import Mathlib

/-!
Verification of the search-suggestions core of the `ckanext-discovery`
extension.

The repository ships the test-suite, the CLI wrapper and the test fixtures
of the `search_suggestions` plugin, but the plugin module itself
(`ckanext/discovery/plugins/search_suggestions/__init__.py` with
`SearchQuery`, `preprocess_search_term`, `reprocess` and the
`discovery_search_suggest` action) and its ORM model
(`search_suggestions/model.py` with `SearchTerm` and `CoOccurrence`) are
not part of the source tree.  Every definition below that embeds one of
those missing pieces is therefore modelled from the specification
(`spec.md`, sections 3, 4.1-4.6, 6 and 7) and cross-checked against the
concrete expectations of `tests/plugins/test_search_suggestions.py`.

Conventions of the embedding:
* Python strings are Lean `String`s (lists of unicode code points).
* A preprocessor plugin is a function `String → HookResult`; a raised
  exception is the `HookResult.raised` constructor.
* A Python function returning `False`/raising is encoded with `Option`:
  `none` stands for "discarded" (for `preprocess_search_term`) or for a
  raised `IndexError` (for `last_word`).
* The mutable database is the `Store` structure (association lists of
  counters); one ORM transaction becomes one pure state-passing step.
-/

namespace Discovery

/-! ## Term normalizer (spec 4.1, modelled from the spec) -/

/-- Modelled from the spec: unicode-aware case folding used by the missing
normalizer.  ASCII `A`-`Z` and the Latin-1 uppercase letters `À`-`Þ`
(except the multiplication sign `×`) are mapped 32 code points up, which
is the unicode `toLower` mapping on those ranges; all characters appearing
in the spec's and the tests' examples are covered. -/
def toLowerVal (v : Nat) : Nat :=
  if 65 ≤ v ∧ v ≤ 90 then v + 32
  else if 192 ≤ v ∧ v ≤ 222 ∧ v ≠ 215 then v + 32
  else v

/-- Case folding on a single character. -/
def toLowerUni (c : Char) : Char := Char.ofNat (toLowerVal c.toNat)

/-- Case folding on a whole string (`SearchQuery.string` of the missing
`SearchQuery` class is the lower-cased raw query). -/
def lowerStr (s : String) : String := ⟨s.data.map toLowerUni⟩

/-- Modelled from the spec: a "word character" of the missing normalizer is
a unicode letter or digit (spec 4.1).  Letters are approximated by the
ASCII letters together with the Latin-1 supplement and Latin Extended-A/B
letter blocks (`U+00C0`-`U+024F` minus the two arithmetic signs `×` and
`÷`), which covers every character exercised by the spec and the tests.
The underscore is *not* a word character. -/
def isWordChar (c : Char) : Bool :=
  (48 ≤ c.toNat && c.toNat ≤ 57) ||
  (97 ≤ c.toNat && c.toNat ≤ 122) ||
  (65 ≤ c.toNat && c.toNat ≤ 90) ||
  (192 ≤ c.toNat && c.toNat ≤ 591 && c.toNat ≠ 215 && c.toNat ≠ 247)

/-- Word-character test lifted to an optional neighbouring character. -/
def isWordOpt : Option Char → Bool
  | some c => isWordChar c
  | none => false

/-- Modelled from the spec: a character of the raw query is kept iff it is
a word character, or it is a hyphen enclosed between two word characters
(spec 4.1: a hyphen is internal punctuation when surrounded by word
characters on both sides, otherwise it is a separator). -/
def keepOne (prev : Option Char) (c : Char) (next : Option Char) : Bool :=
  isWordChar c || (c == '-' && isWordOpt prev && isWordOpt next)

/-- Tag every character of the query with its keep/separator status;
separators become `none`. -/
def markAux : Option Char → List Char → List (Option Char)
  | _, [] => []
  | prev, c :: rest =>
      (if keepOne prev c rest.head? then some c else none) :: markAux (some c) rest

/-- Collect the maximal runs of kept characters: each run is one token,
separators are dropped. -/
def groupTokens : List (Option Char) → List (List Char)
  | [] => []
  | none :: rest => groupTokens rest
  | some c :: none :: rest => [c] :: groupTokens rest
  | [some c] => [[c]]
  | some c :: some d :: rest =>
      match groupTokens (some d :: rest) with
      | t :: ts => (c :: t) :: ts
      | [] => [[c]]

/-- Modelled from the spec: the missing normalizer
(`SearchQuery` word splitting, spec 4.1).  Lower-case the raw string,
split at whitespace and at non-internal hyphens, strip every character
that is not a word character or an internal hyphen, and drop tokens that
become empty. -/
def normWords (raw : String) : List String :=
  (groupTokens (markAux none (raw.data.map toLowerUni))).map (fun t => ⟨t⟩)

/-- Modelled from the spec: `SearchQuery.is_last_word_complete` — the last
word is complete iff the raw input is empty or its last character is
whitespace (spec 4.1). -/
def isLastComplete (raw : String) : Bool :=
  match raw.data.getLast? with
  | none => true
  | some c => c.isWhitespace

/-! ## Term preprocessor hook (spec 4.2, modelled from the spec) -/

/-- Outcome of one call of a registered `ISearchTermPreprocessor` plugin:
a replacement string, the veto value `False`, or a raised exception. -/
inductive HookResult where
  | replace (s : String)
  | veto
  | raised
deriving Repr, DecidableEq

/-- A preprocessor plugin is a function from a term to a `HookResult`. -/
def Hook : Type := String → HookResult

/-- The default preprocessor: the identity pass-through
(`ISearchTermPreprocessor.preprocess_search_term`, spec 4.2). -/
def defaultHook : Hook := fun t => HookResult.replace t

/-- Modelled from the spec: the missing module function
`preprocess_search_term`.  A replacement string is re-normalized with the
normalizer's character-stripping rule (the surviving tokens are joined);
an empty re-normalization, the veto value `False` and a raised exception
all yield "discarded" (`none`); an exception is logged and never
propagated (spec 4.2). -/
def preprocess_search_term (hook : Hook) (term : String) : Option String :=
  match hook term with
  | HookResult.replace s =>
      let s' := String.join (normWords s)
      if s' = "" then none else some s'
  | HookResult.veto => none
  | HookResult.raised => none

/-- Modelled from the spec: the word sequence of a `SearchQuery` — the
normalized words of the raw query, each run through the preprocessor,
keeping the surviving replacements (spec 3, 4.2, 4.4 step 2). -/
def queryWords (hook : Hook) (raw : String) : List String :=
  (normWords raw).filterMap (preprocess_search_term hook)

/-- Modelled from the spec: `SearchQuery.last_word`; `none` encodes the
propagated `IndexError` on a query that normalizes to zero words
(spec 4.1 and the `EmptySequenceError` entry of spec 7). -/
def last_word (hook : Hook) (raw : String) : Option String :=
  (queryWords hook raw).getLast?

/-! ## Lexicographic string order (code-point order, used to canonicalize
unordered pairs and to break ranking ties deterministically) -/

/-- Code-point lexicographic `≤` on character lists. -/
def charsLe : List Char → List Char → Bool
  | [], _ => true
  | _ :: _, [] => false
  | a :: as, b :: bs =>
      if a = b then charsLe as bs
      else decide (a.toNat < b.toNat)

/-- Code-point lexicographic `≤` on strings. -/
def strLe (a b : String) : Bool := charsLe a.data b.data

/-! ## Co-occurrence store (spec 3 and 4.3, modelled from the spec) -/

/-- Count lookup in an association list; an absent key counts zero
(`CoOccurrence.for_words(...)` of an unseen pair has `count == 0` in the
tests). -/
def lookupNat {α : Type} [DecidableEq α] (k : α) : List (α × Nat) → Nat
  | [] => 0
  | (k', c) :: rest => if k' = k then c else lookupNat k rest

/-- Add `c` to the counter stored under key `k`, creating the record on
first use (`get_or_create` + increment of spec 4.3). -/
def addCount {α : Type} [DecidableEq α] (k : α) (c : Nat) :
    List (α × Nat) → List (α × Nat)
  | [] => [(k, c)]
  | (k', c') :: rest =>
      if k' = k then (k', c' + c) :: rest else (k', c') :: addCount k c rest

/-- Modelled from the spec: canonical order of an unordered pair — the two
distinct terms are stored lexicographically so that `(A,B)` and `(B,A)`
map to the same `CoOccurrence` record (spec 3 and 4.3). -/
def canon (a b : String) : String × String :=
  if strLe a b then (a, b) else (b, a)

/-- Modelled from the spec: the persistent state owned by the
co-occurrence store — the `SearchTerm` counters and the canonical
`CoOccurrence` counters (spec 3). -/
structure Store where
  terms : List (String × Nat)
  pairs : List ((String × String) × Nat)
deriving Repr, DecidableEq

/-- The store with no records. -/
def emptyStore : Store := ⟨[], []⟩

/-- `SearchTerm.get_or_create(term=t).count`. -/
def Store.termCount (s : Store) (t : String) : Nat := lookupNat t s.terms

/-- `CoOccurrence.for_words(a, b).count` — looked up under the canonical
order, so it is symmetric in its two arguments. -/
def Store.cooc (s : Store) (a b : String) : Nat := lookupNat (canon a b) s.pairs

/-- Increment one `SearchTerm` counter. -/
def Store.incTerm (s : Store) (t : String) : Store :=
  ⟨addCount t 1 s.terms, s.pairs⟩

/-- Increment one `CoOccurrence` counter after canonicalizing the pair;
a degenerate pair (`termA == termB`) is a no-op (spec 4.3). -/
def Store.incPair (s : Store) (a b : String) : Store :=
  if a = b then s else ⟨s.terms, addCount (canon a b) 1 s.pairs⟩

/-- All ordered representatives of the unordered pairs of a word list:
each element is paired with every later element. -/
def allPairs : List String → List (String × String)
  | [] => []
  | x :: xs => xs.map (fun y => (x, y)) ++ allPairs xs

/-- Modelled from the spec: the store transaction of one recorded query
(spec 4.4 step 3): increment the `SearchTerm` counter of every surviving
word (once per occurrence), and the `CoOccurrence` counter of every
unordered pair of distinct terms drawn from the set of unique surviving
words (once per query). -/
def recordSurvivors (ws : List String) (s : Store) : Store :=
  (allPairs ws.dedup).foldl (fun st p => st.incPair p.1 p.2)
    (ws.foldl Store.incTerm s)

/-- Modelled from the spec: `SearchQuery(raw).store()` — normalize,
preprocess, then record the surviving words (spec 4.4). -/
def SearchQuery_store (hook : Hook) (raw : String) (s : Store) : Store :=
  recordSurvivors (queryWords hook raw) s

/-- `SearchQuery(raw).store()` repeated `n` times. -/
def storeN (hook : Hook) (raw : String) : Nat → Store → Store
  | 0, s => s
  | n + 1, s => storeN hook raw n (SearchQuery_store hook raw s)

/-- The `search_history` helper of the test-suite: clear the store and
record each given query once, with the default preprocessor. -/
def storeQueries (qs : List String) : Store :=
  qs.foldl (fun s q => SearchQuery_store defaultHook q s) emptyStore

/-! ## Reprocessor (spec 4.6, modelled from the spec) -/

/-- Worker of `remap`: walk the old table, accumulating the rebuilt one. -/
def remapAux {α : Type} [DecidableEq α] (f : α → Option α) :
    List (α × Nat) → List (α × Nat) → List (α × Nat)
  | [], acc => acc
  | e :: rest, acc =>
      remapAux f rest
        (match f e.1 with
         | some k => addCount k e.2 acc
         | none => acc)

/-- Rebuild one counter table: each record's key is mapped through `f`,
records whose key is dropped disappear, records whose keys collide are
merged by adding their counts. -/
def remap {α : Type} [DecidableEq α] (f : α → Option α) (l : List (α × Nat)) :
    List (α × Nat) :=
  remapAux f l []

/-- Image of a stored pair under the preprocessor: both components must
survive and stay distinct, and the result is re-canonicalized; otherwise
the pair is dropped (no orphaned `CoOccurrence`, spec 4.3/4.6). -/
def pairImage (hook : Hook) (k : String × String) : Option (String × String) :=
  match preprocess_search_term hook k.1, preprocess_search_term hook k.2 with
  | some a, some b => if a = b then none else some (canon a b)
  | _, _ => none

/-- Modelled from the spec: the missing `reprocess` job — apply the
current preprocessor afresh to every stored term, merge the results, and
reconstruct the counts at term-level granularity (spec 4.6). -/
def reprocess (hook : Hook) (s : Store) : Store :=
  ⟨remap (preprocess_search_term hook) s.terms, remap (pairImage hook) s.pairs⟩

/-! ## Suggestion engine (spec 4.5, modelled from the spec) -/

/-- `p` is a prefix of `s` (on code points). -/
def isPre (p s : String) : Bool := decide (s.data.take p.data.length = p.data)

/-- The last `n` elements of a list. -/
def lastN (n : Nat) (l : List String) : List String := l.drop (l.length - n)

/-- Maximal number of context words used for ranking (spec 4.5). -/
def MAX_CONTEXT_WORDS : Nat := 4

/-- Default suggestion limit (spec 4.5 / configuration default 4). -/
def DEFAULT_LIMIT : Nat := 4

/-- Modelled from the spec: the context words of a partial query — at most
the last `MAX_CONTEXT_WORDS` complete words: all words when the last word
is complete, all but the trailing incomplete word otherwise (spec 4.5,
`test_max_content_words`). -/
def contextOf (W : List String) (complete : Bool) : List String :=
  if complete then lastN MAX_CONTEXT_WORDS W
  else lastN MAX_CONTEXT_WORDS W.dropLast

/-- Insert into a list sorted by the total comparator `le`. -/
def insSorted {α : Type} (le : α → α → Bool) (x : α) : List α → List α
  | [] => [x]
  | y :: ys => if le x y then x :: y :: ys else y :: insSorted le x ys

/-- Insertion sort by the total comparator `le`. -/
def sortBy {α : Type} (le : α → α → Bool) (l : List α) : List α :=
  l.foldr (insSorted le) []

/-- Aggregate co-occurrence strength of a candidate with the complete
context words (spec 4.5; the spec leaves the aggregate open and the model
uses the sum, consistent with the spec's section 8 examples). -/
def score1 (s : Store) (C : List String) (o : String) : Nat :=
  (C.map (fun c => s.cooc c o)).sum

/-- Co-occurrence strength of a candidate with the chosen auto-completion,
zero when no completion is involved. -/
def score2 (s : Store) (comp : Option String) (o : String) : Nat :=
  match comp with
  | some t => s.cooc t o
  | none => 0

/-- Ranking comparator for extension candidates: context strength first
(complete context outweighs the auto-completed word, spec 4.5), then
strength with the completion, then term frequency, then code-point order
as the deterministic tie-break. -/
def extLe (s : Store) (C : List String) (comp : Option String)
    (a b : String) : Bool :=
  if score1 s C b < score1 s C a then true
  else if score1 s C a < score1 s C b then false
  else if score2 s comp b < score2 s comp a then true
  else if score2 s comp a < score2 s comp b then false
  else if s.termCount b < s.termCount a then true
  else if s.termCount a < s.termCount b then false
  else strLe a b

/-- Ranking comparator for auto-complete candidates: term frequency
descending, then code-point order. -/
def acLe (s : Store) (a b : String) : Bool :=
  if s.termCount b < s.termCount a then true
  else if s.termCount a < s.termCount b then false
  else strLe a b

/-- Modelled from the spec: the auto-complete candidates for the
incomplete last word `p` — stored terms that properly extend the typed
word (case-insensitively, via the shared normalization) and do not repeat
a word of the query, ranked by frequency (spec 4.5,
`test_no_automcompletion_for_pseudo_complete_term`). -/
def acTerms (s : Store) (W : List String) (p : String) : List String :=
  sortBy (acLe s)
    ((s.terms.map Prod.fst).filter (fun t => isPre p t && !W.contains t))

/-- Modelled from the spec: the extension candidates — stored terms with a
positive aggregate co-occurrence with the context (or with the chosen
completion), never repeating an excluded word, ranked by `extLe`
(spec 4.5). -/
def extTerms (s : Store) (excl : List String) (C : List String)
    (comp : Option String) : List String :=
  sortBy (extLe s C comp)
    ((s.terms.map Prod.fst).filter
      (fun o => decide (0 < score1 s C o + score2 s comp o) && !excl.contains o))

/-- Drop the trailing whitespace-free chunk of the raw query: the part of
the original text that the incomplete last word came from. -/
def dropLastChunk (raw : String) : String :=
  ⟨(raw.data.reverse.dropWhile (fun c => !c.isWhitespace)).reverse⟩

/-- Value of an extension suggestion: the original partial query text with
the candidate appended, inserting a separating space only when the raw
text does not already end in whitespace (spec 4.5). -/
def extValue (raw : String) (o : String) : String :=
  if isLastComplete raw then raw ++ o else raw ++ " " ++ o

/-- Value of an auto-complete suggestion: the original partial query text
with the incomplete last word (including its stripped characters)
replaced by the candidate (spec 4.5, `test_stripped_characters`). -/
def acValue (raw : String) (t : String) : String := dropLastChunk raw ++ t

/-- One returned suggestion: its `value` text and the candidate term that
produced it (the spec's `label` is `value` with the new part wrapped in
emphasis markup and is not modelled separately). -/
structure Item where
  value : String
  term : String
deriving Repr, DecidableEq

/-- Modelled from the spec: the missing suggestion engine, before the
result cap (spec 4.5).  A query normalizing to zero words yields no
suggestions.  When the last word is complete, the engine offers ranked
extensions of the query.  When it is incomplete, the engine offers ranked
auto-completions of the last word, followed by ranked extensions of the
best completion; with no completion available, extensions of the
unchanged query are offered. -/
def suggestRaw (s : Store) (hook : Hook) (raw : String) : List Item :=
  let W := queryWords hook raw
  if W.isEmpty then []
  else if isLastComplete raw then
    (extTerms s W (contextOf W true) none).map
      (fun o => Item.mk (extValue raw o) o)
  else
    let p := (W.getLast?).getD ""
    let C := contextOf W false
    match acTerms s W p with
    | [] =>
        (extTerms s W C none).map (fun o => Item.mk (extValue raw o) o)
    | t :: ts =>
        ((t :: ts).map (fun u => Item.mk (acValue raw u) u)) ++
          (extTerms s (t :: W) C (some t)).map
            (fun o => Item.mk (acValue raw t ++ " " ++ o) o)

/-- The ranked suggestions, capped at the configured limit (spec 4.5:
never pad, never error when the limit exceeds the available results). -/
def suggestItems (s : Store) (hook : Hook) (limit : Nat) (raw : String) :
    List Item :=
  (suggestRaw s hook raw).take limit

/-- The `value` fields of the ranked suggestions. -/
def suggestVals (s : Store) (hook : Hook) (limit : Nat) (raw : String) :
    List String :=
  (suggestItems s hook limit raw).map Item.value

/-- Modelled from the spec: the registered `discovery_search_suggest`
action — an absent `q` argument is a validation error, a present one is
answered by the suggestion engine (spec 4.5, 6 and 7). -/
def discovery_search_suggest (s : Store) (hook : Hook) (limit : Nat)
    (q : Option String) : Except String (List String) :=
  match q with
  | none => Except.error "ValidationError: q is required"
  | some raw => Except.ok (suggestVals s hook limit raw)

/-! ## Concrete fixtures from the test-suite -/

/-- The `MockSearchTermPreprocessor` plugin of the test-suite. -/
def mockHook : Hook := fun t =>
  if t = "stopword" then HookResult.veto
  else if t = "bad-word" then HookResult.replace ""
  else if t = "replace" then HookResult.replace "-Ä_b-c$z2*3 f-"
  else if t = "error" then HookResult.raised
  else HookResult.replace t

/-- A preprocessor that rewrites every term to the fixed clean term `x`. -/
def constHook : Hook := fun _ => HookResult.replace "x"

/-- A preprocessor that is not stable on its own output:
`aa ↦ bb ↦ cc`. -/
def chainHook : Hook := fun t =>
  if t = "aa" then HookResult.replace "bb"
  else if t = "bb" then HookResult.replace "cc"
  else HookResult.replace t

/-- Search history of `test_max_content_words`. -/
def historyMax : Store := storeQueries ["fox chicken", "wolf sheep"]

/-- Search history of `test_completed_terms_more_important_than_autocomplete`. -/
def historyTiers : Store := storeQueries ["dog wolf", "cat chicken"]

/-- Search history of `test_no_automcompletion_for_pseudo_complete_term`. -/
def historyPseudo : Store := storeQueries ["cat", "caterpillar"]

/-- Search history of `test_stripped_characters`. -/
def historyStripped : Store := storeQueries ["cat mouse"]

/-! ## Character and string-order lemmas -/

theorem char_toNat_inj {a b : Char} (h : a.toNat = b.toNat) : a = b := by
  apply Char.ext
  have h' : a.val.toNat = b.val.toNat := h
  exact UInt32.eq_of_val_eq (Fin.eq_of_val_eq h')

theorem charsLe_refl (l : List Char) : charsLe l l = true := by
  induction l with
  | nil => rfl
  | cons a as ih => simp [charsLe, ih]

theorem charsLe_total (l m : List Char) : charsLe l m = true ∨ charsLe m l = true := by
  induction l generalizing m with
  | nil => left; rfl
  | cons a as ih =>
      cases m with
      | nil => right; rfl
      | cons b bs =>
          by_cases hab : a = b
          · subst hab
            rcases ih bs with h | h <;> simp [charsLe, h]
          · have hne : a.toNat ≠ b.toNat := fun hc => hab (char_toNat_inj hc)
            have hba : b ≠ a := fun hc => hab hc.symm
            rcases Nat.lt_or_ge a.toNat b.toNat with h | h
            · left; simp [charsLe, hab, h]
            · right
              have : b.toNat < a.toNat := lt_of_le_of_ne h (fun hc => hne hc.symm)
              simp [charsLe, hba, this]

theorem charsLe_antisymm (l m : List Char) (h1 : charsLe l m = true)
    (h2 : charsLe m l = true) : l = m := by
  induction l generalizing m with
  | nil =>
      cases m with
      | nil => rfl
      | cons b bs => simp [charsLe] at h2
  | cons a as ih =>
      cases m with
      | nil => simp [charsLe] at h1
      | cons b bs =>
          by_cases hab : a = b
          · subst hab
            simp only [charsLe, if_pos rfl] at h1 h2
            rw [ih bs h1 h2]
          · have hba : b ≠ a := fun hc => hab hc.symm
            simp only [charsLe, if_neg hab] at h1
            simp only [charsLe, if_neg hba] at h2
            simp only [decide_eq_true_eq] at h1 h2
            omega

theorem charsLe_trans (l m n : List Char) (h1 : charsLe l m = true)
    (h2 : charsLe m n = true) : charsLe l n = true := by
  induction l generalizing m n with
  | nil => rfl
  | cons a as ih =>
      cases m with
      | nil => simp [charsLe] at h1
      | cons b bs =>
          cases n with
          | nil => simp [charsLe] at h2
          | cons c cs =>
              by_cases hab : a = b <;> by_cases hbc : b = c
              · subst hab; subst hbc
                simp only [charsLe, if_pos rfl] at h1 h2 ⊢
                exact ih bs cs h1 h2
              · subst hab
                simp only [charsLe, if_neg hbc] at h2 ⊢
                exact h2
              · subst hbc
                simp only [charsLe, if_neg hab] at h1 ⊢
                exact h1
              · simp only [charsLe, if_neg hab] at h1
                simp only [charsLe, if_neg hbc] at h2
                simp only [decide_eq_true_eq] at h1 h2
                have hac : a.toNat < c.toNat := Nat.lt_trans h1 h2
                have hne : a ≠ c := by
                  intro hc; subst hc; omega
                simp [charsLe, hne, hac]

theorem string_ext {s t : String} (h : s.data = t.data) : s = t := by
  cases s; cases t; simp_all

theorem strLe_refl (a : String) : strLe a a = true := charsLe_refl a.data

theorem strLe_total (a b : String) : strLe a b = true ∨ strLe b a = true :=
  charsLe_total a.data b.data

theorem strLe_antisymm {a b : String} (h1 : strLe a b = true)
    (h2 : strLe b a = true) : a = b :=
  string_ext (charsLe_antisymm a.data b.data h1 h2)

theorem strLe_trans {a b c : String} (h1 : strLe a b = true)
    (h2 : strLe b c = true) : strLe a c = true :=
  charsLe_trans a.data b.data c.data h1 h2

/-- The canonical pair is one of the two orderings of its arguments. -/
theorem canon_cases (a b : String) : canon a b = (a, b) ∨ canon a b = (b, a) := by
  unfold canon; split <;> simp

theorem canon_self (a : String) : canon a a = (a, a) := by
  rcases canon_cases a a with h | h <;> exact h

/-- Canonicalization is symmetric in its arguments. -/
theorem canon_comm (a b : String) : canon b a = canon a b := by
  by_cases hab : a = b
  · subst hab; rfl
  · unfold canon
    by_cases h1 : strLe b a = true <;> by_cases h2 : strLe a b = true
    · exact absurd (strLe_antisymm h1 h2) (fun hc => hab hc.symm)
    · simp [h1, h2]
    · simp [h1, h2]
    · rcases strLe_total a b with h | h
      · exact absurd h h2
      · exact absurd h h1

/-- Canonicalization identifies exactly the two orderings of an unordered
pair of distinct terms. -/
theorem canon_eq_iff {a b x y : String} (hab : a ≠ b) (hxy : x ≠ y) :
    canon x y = canon a b ↔ (x = a ∧ y = b) ∨ (x = b ∧ y = a) := by
  constructor
  · intro h
    rcases canon_cases x y with hx | hx <;> rcases canon_cases a b with ha | ha <;>
      rw [hx, ha] at h <;>
      simp only [Prod.mk.injEq] at h
    · exact Or.inl h
    · exact Or.inr ⟨h.1, h.2⟩
    · exact Or.inr ⟨h.2, h.1⟩
    · exact Or.inl ⟨h.2, h.1⟩
  · intro h
    rcases h with ⟨rfl, rfl⟩ | ⟨rfl, rfl⟩
    · rfl
    · exact canon_comm _ _

theorem canon_idem (a b : String) :
    canon (canon a b).1 (canon a b).2 = canon a b := by
  unfold canon
  by_cases h : strLe a b = true
  · simp [h]
  · rcases strLe_total a b with h' | h'
    · exact absurd h' h
    · simp [h, h']

/-! ## Counter-table lemmas -/

theorem lookupNat_addCount {α : Type} [DecidableEq α] (k k' : α) (c : Nat)
    (l : List (α × Nat)) :
    lookupNat k (addCount k' c l) = lookupNat k l + (if k' = k then c else 0) := by
  induction l with
  | nil => by_cases h : k' = k <;> simp [addCount, lookupNat, h]
  | cons e rest ih =>
      obtain ⟨a, b⟩ := e
      by_cases h1 : a = k'
      · subst h1
        by_cases h2 : a = k
        · subst h2; simp [addCount, lookupNat]
        · simp [addCount, lookupNat, h2]
      · by_cases h2 : a = k
        · subst h2
          have hk : k' ≠ a := fun hc => h1 hc.symm
          simp [addCount, lookupNat, h1, hk]
        · simp [addCount, lookupNat, h1, h2, ih]

theorem termCount_foldl_incTerm (ws : List String) (s : Store) (t : String) :
    (ws.foldl Store.incTerm s).termCount t = s.termCount t + ws.count t := by
  induction ws generalizing s with
  | nil => simp
  | cons w ws ih =>
      rw [List.foldl_cons, ih]
      have hstep : (s.incTerm w).termCount t
          = s.termCount t + (if w = t then 1 else 0) := by
        simp [Store.incTerm, Store.termCount, lookupNat_addCount]
      rw [hstep, List.count_cons]
      by_cases h : w = t <;> simp [h] <;> omega

theorem pairs_foldl_incTerm (ws : List String) (s : Store) :
    (ws.foldl Store.incTerm s).pairs = s.pairs := by
  induction ws generalizing s with
  | nil => rfl
  | cons w ws ih => simp [List.foldl_cons, ih, Store.incTerm]

theorem terms_foldl_incPair (ps : List (String × String)) (s : Store) :
    (ps.foldl (fun st p => st.incPair p.1 p.2) s).terms = s.terms := by
  induction ps generalizing s with
  | nil => rfl
  | cons p ps ih =>
      rw [List.foldl_cons, ih]
      unfold Store.incPair
      split <;> rfl

/-- Does an ordered pair hit the same canonical record as `(a, b)`? -/
def pairMatches (a b : String) (p : String × String) : Bool :=
  decide (p.1 ≠ p.2) && decide (canon p.1 p.2 = canon a b)

theorem cooc_foldl_incPair (ps : List (String × String)) (s : Store) (a b : String) :
    (ps.foldl (fun st p => st.incPair p.1 p.2) s).cooc a b
      = s.cooc a b + (ps.filter (pairMatches a b)).length := by
  induction ps generalizing s with
  | nil => simp
  | cons p ps ih =>
      rw [List.foldl_cons, ih, List.filter_cons]
      by_cases hne : p.1 = p.2
      · simp [Store.incPair, hne, pairMatches]
      · by_cases hc : canon p.1 p.2 = canon a b
        · have : (s.incPair p.1 p.2).cooc a b = s.cooc a b + 1 := by
            simp [Store.incPair, hne, Store.cooc, lookupNat_addCount, hc]
          rw [this]
          simp [pairMatches, hne, hc]
          omega
        · have : (s.incPair p.1 p.2).cooc a b = s.cooc a b := by
            simp [Store.incPair, hne, Store.cooc, lookupNat_addCount, hc]
          rw [this]
          simp [pairMatches, hne, hc]

theorem length_filter_eq_mem {α : Type} [DecidableEq α] (xs : List α) (b : α)
    (h : xs.Nodup) :
    (xs.filter (fun y => decide (y = b))).length = if b ∈ xs then 1 else 0 := by
  induction xs with
  | nil => simp
  | cons z zs ih =>
      rcases List.nodup_cons.1 h with ⟨hz, hzs⟩
      rw [List.filter_cons]
      by_cases hzb : z = b
      · subst hzb
        have hnil : zs.filter (fun y => decide (y = z)) = [] :=
          List.filter_eq_nil_iff.2 (fun y hy => by
            simp only [decide_eq_true_eq]
            intro hc; subst hc; exact hz hy)
        simp [hnil]
      · have hmem : b ∈ z :: zs ↔ b ∈ zs := by
          simp [List.mem_cons]
          intro hc; exact absurd hc.symm hzb
        simp only [decide_eq_true_eq, hzb]
        simp only [if_false, Bool.false_eq_true, ih hzs]
        rw [if_congr hmem rfl rfl]

theorem bool_eq_decide {p : Bool} {q : Prop} [Decidable q] (h : p = true ↔ q) :
    p = decide q := by
  by_cases hq : q
  · rw [h.2 hq]; simp [hq]
  · cases hp : p
    · simp [hq]
    · exact absurd (h.1 hp) hq

theorem filter_allPairs_count (l : List String) (a b : String)
    (hnd : l.Nodup) (hab : a ≠ b) :
    ((allPairs l).filter (pairMatches a b)).length
      = if a ∈ l ∧ b ∈ l then 1 else 0 := by
  induction l with
  | nil => simp [allPairs]
  | cons x xs ih =>
      rcases List.nodup_cons.1 hnd with ⟨hx, hxs⟩
      rw [allPairs, List.filter_append, List.length_append, List.filter_map,
        List.length_map, ih hxs]
      have hmem : ∀ z : String, z ≠ x → ((z ∈ x :: xs) ↔ z ∈ xs) := by
        intro z hz
        constructor
        · intro h
          rcases List.mem_cons.1 h with h | h
          · exact absurd h hz
          · exact h
        · exact fun h => List.mem_cons_of_mem _ h
      by_cases hxa : x = a
      · subst hxa
        have hcong : ∀ y ∈ xs, (pairMatches x b ∘ fun y => (x, y)) y
            = decide (y = b) := by
          intro y _
          apply bool_eq_decide
          unfold pairMatches
          simp only [Function.comp_apply, Bool.and_eq_true, decide_eq_true_eq]
          constructor
          · rintro ⟨h1, h2⟩
            rcases (canon_eq_iff hab h1).1 h2 with ⟨_, h4⟩ | ⟨h3, _⟩
            · exact h4
            · exact absurd h3 hab
          · rintro rfl
            exact ⟨hab, rfl⟩
        rw [List.filter_congr hcong, length_filter_eq_mem xs b hxs]
        have h1 : (x ∈ x :: xs ∧ b ∈ x :: xs) ↔ b ∈ xs := by
          rw [hmem b (fun hc => hab hc.symm)]
          simp [List.mem_cons_self]
        have h2 : (x ∈ xs ∧ b ∈ xs) ↔ False := by simp [hx]
        rw [if_congr h1 rfl rfl, if_congr h2 rfl rfl]
        simp
      · by_cases hxb : x = b
        · subst hxb
          have hcong : ∀ y ∈ xs, (pairMatches a x ∘ fun y => (x, y)) y
              = decide (y = a) := by
            intro y _
            apply bool_eq_decide
            unfold pairMatches
            simp only [Function.comp_apply, Bool.and_eq_true, decide_eq_true_eq]
            constructor
            · rintro ⟨h1, h2⟩
              rcases (canon_eq_iff hab h1).1 h2 with ⟨h3, _⟩ | ⟨_, h4⟩
              · exact absurd h3 hxa
              · exact h4
            · rintro rfl
              exact ⟨hxa, canon_comm _ _⟩
          rw [List.filter_congr hcong, length_filter_eq_mem xs a hxs]
          have h1 : (a ∈ x :: xs ∧ x ∈ x :: xs) ↔ a ∈ xs := by
            rw [hmem a hab]
            simp [List.mem_cons_self]
          have h2 : (a ∈ xs ∧ x ∈ xs) ↔ False := by simp [hx]
          rw [if_congr h1 rfl rfl, if_congr h2 rfl rfl]
          simp
        · have hcong : ∀ y ∈ xs, (pairMatches a b ∘ fun y => (x, y)) y = false := by
            intro y _
            cases hp : (pairMatches a b ∘ fun y => (x, y)) y
            · rfl
            · exfalso
              unfold pairMatches at hp
              simp only [Function.comp_apply, Bool.and_eq_true,
                decide_eq_true_eq] at hp
              rcases hp with ⟨h1, h2⟩
              rcases (canon_eq_iff hab h1).1 h2 with ⟨h3, _⟩ | ⟨h3, _⟩
              · exact absurd h3 hxa
              · exact absurd h3 hxb
          rw [List.filter_congr hcong]
          have h1 : (a ∈ x :: xs ∧ b ∈ x :: xs) ↔ (a ∈ xs ∧ b ∈ xs) :=
            and_congr (hmem a (fun hc => hxa hc.symm))
              (hmem b (fun hc => hxb hc.symm))
          rw [if_congr h1 rfl rfl]
          simp

/-- Effect of recording one word list on a term counter. -/
theorem termCount_recordSurvivors (ws : List String) (s : Store) (t : String) :
    (recordSurvivors ws s).termCount t = s.termCount t + ws.count t := by
  unfold recordSurvivors
  have h : ∀ st : Store,
      ((allPairs ws.dedup).foldl (fun st p => st.incPair p.1 p.2) st).termCount t
        = st.termCount t := by
    intro st; simp [Store.termCount, terms_foldl_incPair]
  rw [h, termCount_foldl_incTerm]

/-- Effect of recording one word list on a co-occurrence counter of a
distinct pair. -/
theorem cooc_recordSurvivors (ws : List String) (s : Store) (a b : String)
    (hab : a ≠ b) :
    (recordSurvivors ws s).cooc a b
      = s.cooc a b + (if a ∈ ws ∧ b ∈ ws then 1 else 0) := by
  unfold recordSurvivors
  rw [cooc_foldl_incPair]
  have h1 : (ws.foldl Store.incTerm s).cooc a b = s.cooc a b := by
    simp [Store.cooc, pairs_foldl_incTerm]
  rw [h1, filter_allPairs_count _ _ _ (List.nodup_dedup ws) hab]
  simp [List.mem_dedup]

/-- Recording never touches a degenerate pair counter. -/
theorem cooc_recordSurvivors_self (ws : List String) (s : Store) (a : String) :
    (recordSurvivors ws s).cooc a a = s.cooc a a := by
  unfold recordSurvivors
  rw [cooc_foldl_incPair]
  have h1 : (ws.foldl Store.incTerm s).cooc a a = s.cooc a a := by
    simp [Store.cooc, pairs_foldl_incTerm]
  have h2 : (allPairs ws.dedup).filter (pairMatches a a) = [] := by
    apply List.filter_eq_nil_iff.2
    intro p _
    simp only [pairMatches, Bool.and_eq_true, decide_eq_true_eq, not_and]
    intro hne hc
    rw [canon_self] at hc
    rcases canon_cases p.1 p.2 with h | h <;> rw [h] at hc <;>
      simp only [Prod.mk.injEq] at hc
    · exact hne (hc.1.trans hc.2.symm)
    · exact hne (hc.2.trans hc.1.symm)
  rw [h1, h2]
  simp

theorem storeN_termCount (hook : Hook) (raw : String) (N : Nat) (s : Store)
    (t : String) :
    (storeN hook raw N s).termCount t
      = s.termCount t + N * (queryWords hook raw).count t := by
  induction N generalizing s with
  | zero => simp [storeN]
  | succ n ih =>
      rw [storeN, ih]
      have h : (SearchQuery_store hook raw s).termCount t
          = s.termCount t + (queryWords hook raw).count t :=
        termCount_recordSurvivors _ _ _
      rw [h]; ring

theorem storeN_cooc (hook : Hook) (raw : String) (N : Nat) (s : Store)
    (a b : String) (hab : a ≠ b) :
    (storeN hook raw N s).cooc a b
      = s.cooc a b
        + N * (if a ∈ queryWords hook raw ∧ b ∈ queryWords hook raw then 1 else 0) := by
  induction N generalizing s with
  | zero => simp [storeN]
  | succ n ih =>
      rw [storeN, ih]
      have h : (SearchQuery_store hook raw s).cooc a b
          = s.cooc a b
            + (if a ∈ queryWords hook raw ∧ b ∈ queryWords hook raw then 1 else 0) :=
        cooc_recordSurvivors _ _ _ _ hab
      rw [h]; ring

theorem storeN_cooc_self (hook : Hook) (raw : String) (N : Nat) (s : Store)
    (a : String) :
    (storeN hook raw N s).cooc a a = s.cooc a a := by
  induction N generalizing s with
  | zero => simp [storeN]
  | succ n ih =>
      rw [storeN, ih]
      exact cooc_recordSurvivors_self _ _ _

/-- C1: recording `SearchQuery(q).store()` `N ≥ 1` times adds `N` per
occurrence to the `SearchTerm` count of every surviving normalized word of
`q`, adds `N` to the `CoOccurrence` count of every unordered pair of
distinct surviving terms, and leaves the counts of all other terms and
pairs unchanged. -/
theorem C1_store_counts (hook : Hook) (raw : String) (s : Store) (N : Nat)
    (t a b : String) (hN : 1 ≤ N) :
    ((storeN hook raw N s).termCount t
        = s.termCount t + N * (queryWords hook raw).count t)
    ∧ (a ∈ queryWords hook raw → b ∈ queryWords hook raw → a ≠ b →
        (storeN hook raw N s).cooc a b = s.cooc a b + N)
    ∧ (t ∉ queryWords hook raw →
        (storeN hook raw N s).termCount t = s.termCount t)
    ∧ (¬(a ∈ queryWords hook raw ∧ b ∈ queryWords hook raw ∧ a ≠ b) →
        (storeN hook raw N s).cooc a b = s.cooc a b) := by
  refine ⟨storeN_termCount hook raw N s t, ?_, ?_, ?_⟩
  · intro ha hb hab
    rw [storeN_cooc hook raw N s a b hab]
    simp [ha, hb]
  · intro ht
    rw [storeN_termCount hook raw N s t]
    have : (queryWords hook raw).count t = 0 := List.count_eq_zero.2 ht
    simp [this]
  · intro hno
    by_cases hab : a = b
    · subst hab; exact storeN_cooc_self hook raw N s a
    · rw [storeN_cooc hook raw N s a b hab]
      have : ¬(a ∈ queryWords hook raw ∧ b ∈ queryWords hook raw) := by
        intro ⟨ha, hb⟩; exact hno ⟨ha, hb, hab⟩
      simp [this]

theorem C1_store_counts_witness :
    (1 ≤ 2)
    ∧ ((storeN defaultHook "dog cat" 2 emptyStore).termCount "dog"
        = emptyStore.termCount "dog" + 2 * (queryWords defaultHook "dog cat").count "dog")
    ∧ ((storeN defaultHook "dog cat" 2 emptyStore).cooc "dog" "cat"
        = emptyStore.cooc "dog" "cat" + 2) :=
  ⟨by decide,
   (C1_store_counts defaultHook "dog cat" emptyStore 2 "dog" "dog" "cat" (by decide)).1,
   (C1_store_counts defaultHook "dog cat" emptyStore 2 "dog" "dog" "cat"
       (by decide)).2.1 (by decide) (by decide) (by decide)⟩

/-- C5: a term vetoed by the preprocessor, mapped to a replacement that
normalizes to the empty string, or on which the preprocessor raises, is
discarded; it contributes to no `SearchTerm` count and to no
`CoOccurrence` pair of the recorded query, while every sibling word of
the same query is recorded exactly as if the discarded term were absent,
and the recording itself always succeeds. -/
theorem C5_veto_and_error_isolation (hook : Hook) (s : Store)
    (l1 l2 : List String) (w raw : String) :
    (hook w = HookResult.veto → preprocess_search_term hook w = none)
    ∧ (hook w = HookResult.raised → preprocess_search_term hook w = none)
    ∧ (∀ r, hook w = HookResult.replace r → String.join (normWords r) = "" →
        preprocess_search_term hook w = none)
    ∧ (normWords raw = l1 ++ w :: l2 → preprocess_search_term hook w = none →
        SearchQuery_store hook raw s
          = recordSurvivors ((l1 ++ l2).filterMap (preprocess_search_term hook)) s) := by
  refine ⟨?_, ?_, ?_, ?_⟩
  · intro h; simp [preprocess_search_term, h]
  · intro h; simp [preprocess_search_term, h]
  · intro r h hr; simp [preprocess_search_term, h, hr]
  · intro hsplit hw
    unfold SearchQuery_store queryWords
    rw [hsplit]
    rw [List.filterMap_append, List.filterMap_cons, hw, List.filterMap_append]

theorem C5_veto_and_error_isolation_witness :
    (preprocess_search_term mockHook "error" = none)
    ∧ (SearchQuery_store mockHook "error other" emptyStore
        = recordSurvivors ((["error"] ++ ["other"]).filterMap
            (preprocess_search_term mockHook)) emptyStore → True)
    ∧ (SearchQuery_store mockHook "error other" emptyStore
        = recordSurvivors (([] ++ ["other"]).filterMap
            (preprocess_search_term mockHook)) emptyStore) :=
  ⟨(C5_veto_and_error_isolation mockHook emptyStore [] ["other"] "error"
      "error other").2.1 (by decide),
   fun _ => trivial,
   (C5_veto_and_error_isolation mockHook emptyStore [] ["other"] "error"
      "error other").2.2.2 (by decide) (by decide)⟩

/-! ## Reprocessing lemmas -/

theorem keys_addCount_subset {α : Type} [DecidableEq α] (k : α) (c : Nat)
    (l : List (α × Nat)) (x : α)
    (h : x ∈ (addCount k c l).map Prod.fst) : x = k ∨ x ∈ l.map Prod.fst := by
  induction l with
  | nil => simpa [addCount] using h
  | cons e rest ih =>
      obtain ⟨a, b⟩ := e
      by_cases hak : a = k
      · subst hak
        simp only [addCount, if_pos rfl] at h
        exact Or.inr h
      · simp only [addCount, if_neg hak, List.map_cons, List.mem_cons] at h
        rcases h with h | h
        · exact Or.inr (by simp [h])
        · rcases ih h with h' | h'
          · exact Or.inl h'
          · exact Or.inr (by simp [h'])

theorem keys_addCount_nodup {α : Type} [DecidableEq α] (k : α) (c : Nat)
    (l : List (α × Nat)) (h : (l.map Prod.fst).Nodup) :
    ((addCount k c l).map Prod.fst).Nodup := by
  induction l with
  | nil => simp [addCount]
  | cons e rest ih =>
      obtain ⟨a, b⟩ := e
      rw [List.map_cons] at h
      rcases List.nodup_cons.1 h with ⟨ha, hrest⟩
      by_cases hak : a = k
      · subst hak
        simpa [addCount, List.map_cons] using List.nodup_cons.2 ⟨ha, hrest⟩
      · simp only [addCount, if_neg hak, List.map_cons]
        refine List.nodup_cons.2 ⟨?_, ih hrest⟩
        intro hmem
        rcases keys_addCount_subset k c rest a hmem with h1 | h1
        · exact hak h1
        · exact ha h1

theorem lookupNat_remapAux {α : Type} [DecidableEq α] (f : α → Option α)
    (l : List (α × Nat)) (acc : List (α × Nat)) (k : α) :
    lookupNat k (remapAux f l acc)
      = lookupNat k acc
        + ((l.filter (fun e => decide (f e.1 = some k))).map Prod.snd).sum := by
  induction l generalizing acc with
  | nil => simp [remapAux]
  | cons e rest ih =>
      rw [remapAux, List.filter_cons]
      cases hf : f e.1 with
      | none => simp [hf, ih]
      | some k' =>
          rw [ih]
          by_cases hk : k' = k
          · subst hk
            simp [hf, lookupNat_addCount]
            omega
          · simp [hf, hk, lookupNat_addCount]

theorem lookupNat_remap {α : Type} [DecidableEq α] (f : α → Option α)
    (l : List (α × Nat)) (k : α) :
    lookupNat k (remap f l)
      = ((l.filter (fun e => decide (f e.1 = some k))).map Prod.snd).sum := by
  unfold remap
  rw [lookupNat_remapAux]
  simp [lookupNat]

theorem keys_remapAux_nodup {α : Type} [DecidableEq α] (f : α → Option α)
    (l : List (α × Nat)) (acc : List (α × Nat))
    (hacc : (acc.map Prod.fst).Nodup) :
    ((remapAux f l acc).map Prod.fst).Nodup := by
  induction l generalizing acc with
  | nil => simpa [remapAux]
  | cons e rest ih =>
      rw [remapAux]
      cases hf : f e.1 with
      | none => exact ih acc hacc
      | some k' =>
          simp only [hf]
          exact ih _ (keys_addCount_nodup k' e.2 acc hacc)

theorem keys_remapAux_image {α : Type} [DecidableEq α] (f : α → Option α)
    (l : List (α × Nat)) (acc : List (α × Nat))
    (hacc : ∀ x ∈ acc.map Prod.fst, ∃ y, f y = some x) :
    ∀ x ∈ (remapAux f l acc).map Prod.fst, ∃ y, f y = some x := by
  induction l generalizing acc with
  | nil => exact hacc
  | cons e rest ih =>
      rw [remapAux]
      cases hf : f e.1 with
      | none => exact ih acc hacc
      | some k' =>
          simp only [hf]
          refine ih _ ?_
          intro x hx
          rcases keys_addCount_subset k' e.2 acc x hx with h | h
          · exact ⟨e.1, h ▸ hf⟩
          · exact hacc x h

theorem sum_filter_key {α : Type} [DecidableEq α] (l : List (α × Nat)) (k : α)
    (h : (l.map Prod.fst).Nodup) :
    ((l.filter (fun e => decide (e.1 = k))).map Prod.snd).sum = lookupNat k l := by
  induction l with
  | nil => simp [lookupNat]
  | cons e rest ih =>
      obtain ⟨a, b⟩ := e
      rw [List.map_cons] at h
      rcases List.nodup_cons.1 h with ⟨ha, hrest⟩
      by_cases hak : a = k
      · subst hak
        have hnil : rest.filter (fun e => decide (e.1 = a)) = [] := by
          apply List.filter_eq_nil_iff.2
          intro q hq
          simp only [decide_eq_true_eq]
          intro hc
          have hmm : q.1 ∈ rest.map Prod.fst := List.mem_map_of_mem Prod.fst hq
          rw [hc] at hmm
          exact ha hmm
        simp [List.filter_cons, hnil, lookupNat]
      · simp [List.filter_cons, hak, lookupNat, ih hrest]

theorem lookupNat_remap_remap {α : Type} [DecidableEq α] (f : α → Option α)
    (hstab : ∀ x k, f x = some k → f k = some k) (l : List (α × Nat)) (k : α) :
    lookupNat k (remap f (remap f l)) = lookupNat k (remap f l) := by
  rw [lookupNat_remap]
  have himg : ∀ x ∈ (remap f l).map Prod.fst, ∃ y, f y = some x :=
    keys_remapAux_image f l [] (by simp)
  have hnd : ((remap f l).map Prod.fst).Nodup :=
    keys_remapAux_nodup f l [] (by simp)
  have hcong : (remap f l).filter (fun e => decide (f e.1 = some k))
      = (remap f l).filter (fun e => decide (e.1 = k)) := by
    apply List.filter_congr
    intro e he
    obtain ⟨y, hy⟩ := himg e.1 (List.mem_map_of_mem Prod.fst he)
    have hfix : f e.1 = some e.1 := hstab y e.1 hy
    rw [hfix]
    simp
  rw [hcong, sum_filter_key _ _ hnd]

/-- Term-level stability of the preprocessor transfers to stored pairs. -/
theorem pairImage_stab (hook : Hook)
    (hstab : ∀ x k, preprocess_search_term hook x = some k →
        preprocess_search_term hook k = some k) :
    ∀ x k, pairImage hook x = some k → pairImage hook k = some k := by
  intro x k h
  unfold pairImage at h
  cases h1 : preprocess_search_term hook x.1 with
  | none => simp [h1] at h
  | some a =>
      cases h2 : preprocess_search_term hook x.2 with
      | none => simp [h1, h2] at h
      | some b =>
          simp only [h1, h2] at h
          by_cases hab : a = b
          · simp [hab] at h
          · simp only [if_neg hab, Option.some.injEq] at h
            subst h
            have hsa : preprocess_search_term hook a = some a := hstab _ _ h1
            have hsb : preprocess_search_term hook b = some b := hstab _ _ h2
            rcases canon_cases a b with hc | hc <;> rw [hc]
            · unfold pairImage
              simp only [hsa, hsb, if_neg hab]
              rw [hc]
            · unfold pairImage
              have hba : ¬(b = a) := fun h' => hab h'.symm
              simp only [hsa, hsb, if_neg hba]
              rw [canon_comm a b, hc]

/-- C6 (amended): for every store state and every preprocessor that is
stable on its own surviving output (preprocessing an already-preprocessed
surviving term returns that term unchanged), running `reprocess` twice
leaves every `SearchTerm` count and every `CoOccurrence` count exactly as
after running it once. -/
theorem C6_reprocess_idempotent (hook : Hook) (s : Store) (t a b : String)
    (hstab : ∀ x k, preprocess_search_term hook x = some k →
        preprocess_search_term hook k = some k) :
    (reprocess hook (reprocess hook s)).termCount t
        = (reprocess hook s).termCount t
    ∧ (reprocess hook (reprocess hook s)).cooc a b
        = (reprocess hook s).cooc a b := by
  constructor
  · exact lookupNat_remap_remap _ hstab s.terms t
  · exact lookupNat_remap_remap _ (pairImage_stab hook hstab) s.pairs (canon a b)

/-- C6 counterexample: with the preprocessor `aa ↦ bb ↦ cc` (unchanged
between the two runs) and a store holding the single term `aa`, running
`reprocess` twice does not give the same state as running it once: the
claim as stated, quantifying over every preprocessor, is false. -/
theorem C6_counterexample :
    (reprocess chainHook (reprocess chainHook (Store.mk [("aa", 1)] []))).termCount "bb"
      ≠ (reprocess chainHook (Store.mk [("aa", 1)] [])).termCount "bb" := by
  decide

theorem C6_reprocess_idempotent_witness :
    (∀ x k, preprocess_search_term constHook x = some k →
        preprocess_search_term constHook k = some k)
    ∧ (reprocess constHook (reprocess constHook (Store.mk [("aa", 2), ("x", 3)] []))).termCount "x"
        = (reprocess constHook (Store.mk [("aa", 2), ("x", 3)] [])).termCount "x" := by
  have hstab : ∀ x k, preprocess_search_term constHook x = some k →
      preprocess_search_term constHook k = some k := by
    intro x k h
    have hx : preprocess_search_term constHook x = some "x" := rfl
    rw [hx] at h
    injection h with h'
    subst h'
    rfl
  exact ⟨hstab,
    (C6_reprocess_idempotent constHook (Store.mk [("aa", 2), ("x", 3)] [])
      "x" "a" "b" hstab).1⟩

/-! ## Sorting lemmas -/

theorem mem_insSorted {α : Type} (le : α → α → Bool) (x : α) (l : List α)
    (a : α) : a ∈ insSorted le x l ↔ a = x ∨ a ∈ l := by
  induction l with
  | nil => simp [insSorted]
  | cons y ys ih =>
      by_cases h : le x y = true
      · simp [insSorted, h, List.mem_cons]
      · simp [insSorted, h, List.mem_cons, ih]
        tauto

theorem mem_sortBy {α : Type} (le : α → α → Bool) (l : List α) (a : α) :
    a ∈ sortBy le l ↔ a ∈ l := by
  induction l with
  | nil => simp [sortBy]
  | cons y ys ih =>
      have hstep : sortBy le (y :: ys) = insSorted le y (sortBy le ys) := rfl
      rw [hstep, mem_insSorted]
      simp [List.mem_cons, ih]

theorem pairwise_insSorted {α : Type} (le : α → α → Bool)
    (htot : ∀ a b, le a b = true ∨ le b a = true)
    (htrans : ∀ a b c, le a b = true → le b c = true → le a c = true)
    (x : α) (l : List α) (h : l.Pairwise (fun a b => le a b = true)) :
    (insSorted le x l).Pairwise (fun a b => le a b = true) := by
  induction l with
  | nil => simp [insSorted]
  | cons y ys ih =>
      rcases List.pairwise_cons.1 h with ⟨hy, hys⟩
      by_cases hxy : le x y = true
      · simp only [insSorted, if_pos hxy]
        refine List.pairwise_cons.2 ⟨?_, h⟩
        intro z hz
        rcases List.mem_cons.1 hz with rfl | hz'
        · exact hxy
        · exact htrans x y z hxy (hy z hz')
      · simp only [insSorted, if_neg hxy]
        refine List.pairwise_cons.2 ⟨?_, ih hys⟩
        intro z hz
        rcases (mem_insSorted le x ys z).1 hz with hzx | hz'
        · rcases htot z y with h' | h'
          · exfalso
            rw [hzx] at h'
            exact hxy h'
          · exact h'
        · exact hy z hz'

theorem pairwise_sortBy {α : Type} (le : α → α → Bool)
    (htot : ∀ a b, le a b = true ∨ le b a = true)
    (htrans : ∀ a b c, le a b = true → le b c = true → le a c = true)
    (l : List α) :
    (sortBy le l).Pairwise (fun a b => le a b = true) := by
  induction l with
  | nil => simp [sortBy]
  | cons y ys ih =>
      have hstep : sortBy le (y :: ys) = insSorted le y (sortBy le ys) := rfl
      rw [hstep]
      exact pairwise_insSorted le htot htrans y _ ih

/-! ## Ranking comparator lemmas -/

theorem extLe_iff (s : Store) (C : List String) (comp : Option String)
    (a b : String) :
    extLe s C comp a b = true ↔
      (score1 s C b < score1 s C a
        ∨ (score1 s C a = score1 s C b
          ∧ (score2 s comp b < score2 s comp a
            ∨ (score2 s comp a = score2 s comp b
              ∧ (s.termCount b < s.termCount a
                ∨ (s.termCount a = s.termCount b ∧ strLe a b = true)))))) := by
  unfold extLe
  split_ifs with h1 h2 h3 h4 h5 h6
  · exact iff_of_true rfl (Or.inl h1)
  · refine iff_of_false (by simp) ?_
    rintro (h | ⟨he, _⟩) <;> omega
  · exact iff_of_true rfl (Or.inr ⟨by omega, Or.inl h3⟩)
  · refine iff_of_false (by simp) ?_
    rintro (h | ⟨he, h | ⟨he2, _⟩⟩) <;> omega
  · exact iff_of_true rfl (Or.inr ⟨by omega, Or.inr ⟨by omega, Or.inl h5⟩⟩)
  · refine iff_of_false (by simp) ?_
    rintro (h | ⟨he, h | ⟨he2, h | ⟨he3, _⟩⟩⟩) <;> omega
  · constructor
    · intro hle
      exact Or.inr ⟨by omega, Or.inr ⟨by omega, Or.inr ⟨by omega, hle⟩⟩⟩
    · rintro (h | ⟨he, h | ⟨he2, h | ⟨he3, hle⟩⟩⟩)
      · omega
      · omega
      · omega
      · exact hle

theorem extLe_total (s : Store) (C : List String) (comp : Option String) :
    ∀ a b, extLe s C comp a b = true ∨ extLe s C comp b a = true := by
  intro a b
  rw [extLe_iff, extLe_iff]
  rcases Nat.lt_trichotomy (score1 s C a) (score1 s C b) with h1 | h1 | h1
  · right; exact Or.inl h1
  · rcases Nat.lt_trichotomy (score2 s comp a) (score2 s comp b) with h2 | h2 | h2
    · right; exact Or.inr ⟨h1.symm, Or.inl h2⟩
    · rcases Nat.lt_trichotomy (s.termCount a) (s.termCount b) with h3 | h3 | h3
      · right; exact Or.inr ⟨h1.symm, Or.inr ⟨h2.symm, Or.inl h3⟩⟩
      · rcases strLe_total a b with h4 | h4
        · left; exact Or.inr ⟨h1, Or.inr ⟨h2, Or.inr ⟨h3, h4⟩⟩⟩
        · right; exact Or.inr ⟨h1.symm, Or.inr ⟨h2.symm, Or.inr ⟨h3.symm, h4⟩⟩⟩
      · left; exact Or.inr ⟨h1, Or.inr ⟨h2, Or.inl h3⟩⟩
    · left; exact Or.inr ⟨h1, Or.inl h2⟩
  · left; exact Or.inl h1

theorem extLe_trans (s : Store) (C : List String) (comp : Option String) :
    ∀ a b c, extLe s C comp a b = true → extLe s C comp b c = true →
      extLe s C comp a c = true := by
  intro a b c hab hbc
  rw [extLe_iff] at hab hbc ⊢
  rcases hab with h | ⟨e1, hab⟩
  · rcases hbc with h' | ⟨e1', _⟩ <;> (left; omega)
  · rcases hbc with h' | ⟨e1', hbc⟩
    · left; omega
    · rcases hab with h | ⟨e2, hab⟩
      · rcases hbc with h' | ⟨e2', _⟩ <;>
          exact Or.inr ⟨by omega, Or.inl (by omega)⟩
      · rcases hbc with h' | ⟨e2', hbc⟩
        · exact Or.inr ⟨by omega, Or.inl (by omega)⟩
        · rcases hab with h | ⟨e3, hab⟩
          · rcases hbc with h' | ⟨e3', _⟩ <;>
              exact Or.inr ⟨by omega, Or.inr ⟨by omega, Or.inl (by omega)⟩⟩
          · rcases hbc with h' | ⟨e3', hbc⟩
            · exact Or.inr ⟨by omega, Or.inr ⟨by omega, Or.inl (by omega)⟩⟩
            · exact Or.inr ⟨by omega, Or.inr ⟨by omega,
                Or.inr ⟨by omega, strLe_trans hab hbc⟩⟩⟩

/-! ## Candidate membership lemmas -/

theorem contains_eq_mem (l : List String) (a : String) :
    l.contains a = true ↔ a ∈ l := by
  simp [List.contains]

theorem mem_acTerms (s : Store) (W : List String) (p t : String)
    (h : t ∈ acTerms s W p) : isPre p t = true ∧ t ∉ W := by
  unfold acTerms at h
  rw [mem_sortBy] at h
  rcases List.mem_filter.1 h with ⟨-, hf⟩
  simp only [Bool.and_eq_true, Bool.not_eq_true'] at hf
  refine ⟨hf.1, fun hm => ?_⟩
  have hc := (contains_eq_mem W t).2 hm
  rw [hf.2] at hc
  cases hc

theorem mem_extTerms (s : Store) (excl C : List String) (comp : Option String)
    (o : String) (h : o ∈ extTerms s excl C comp) :
    o ∉ excl ∧ 0 < score1 s C o + score2 s comp o := by
  unfold extTerms at h
  rw [mem_sortBy] at h
  rcases List.mem_filter.1 h with ⟨-, hf⟩
  simp only [Bool.and_eq_true, Bool.not_eq_true', decide_eq_true_eq] at hf
  refine ⟨fun hm => ?_, hf.1⟩
  have hc := (contains_eq_mem excl o).2 hm
  rw [hf.2] at hc
  cases hc

/-- Every suggested item's candidate term avoids every word of the query
(no earlier word is ever re-suggested). -/
theorem suggestRaw_term_not_mem (s : Store) (hook : Hook) (raw : String)
    (it : Item) (h : it ∈ suggestRaw s hook raw) :
    it.term ∉ queryWords hook raw := by
  unfold suggestRaw at h
  by_cases h0 : (queryWords hook raw).isEmpty = true
  · simp [h0] at h
  · simp only [h0, Bool.false_eq_true, if_false] at h
    by_cases hcomp : isLastComplete raw = true
    · simp only [hcomp, if_true] at h
      rcases List.mem_map.1 h with ⟨o, ho, rfl⟩
      exact (mem_extTerms _ _ _ _ _ ho).1
    · simp only [hcomp, Bool.false_eq_true, if_false] at h
      cases hac : acTerms s (queryWords hook raw)
          (((queryWords hook raw).getLast?).getD "") with
      | nil =>
          rw [hac] at h
          rcases List.mem_map.1 h with ⟨o, ho, rfl⟩
          exact (mem_extTerms _ _ _ _ _ ho).1
      | cons t ts =>
          rw [hac] at h
          rcases List.mem_append.1 h with h' | h'
          · rcases List.mem_map.1 h' with ⟨u, hu, rfl⟩
            rw [← hac] at hu
            exact (mem_acTerms _ _ _ _ hu).2
          · rcases List.mem_map.1 h' with ⟨o, ho, rfl⟩
            intro hm
            exact (mem_extTerms _ _ _ _ _ ho).1 (List.mem_cons_of_mem t hm)

theorem suggestItems_term_not_mem (s : Store) (hook : Hook) (limit : Nat)
    (raw : String) (it : Item) (h : it ∈ suggestItems s hook limit raw) :
    it.term ∉ queryWords hook raw :=
  suggestRaw_term_not_mem s hook raw it (List.mem_of_mem_take h)

theorem contextOf_subset (W : List String) (complete : Bool) :
    ∀ x ∈ contextOf W complete, x ∈ W := by
  unfold contextOf lastN
  intro x hx
  split at hx
  · exact List.drop_subset _ _ hx
  · exact List.dropLast_subset _ (List.drop_subset _ _ hx)

/-! ## Normalizer structural lemmas -/

theorem toLowerVal_idem (v : Nat) : toLowerVal (toLowerVal v) = toLowerVal v := by
  unfold toLowerVal
  split_ifs <;> omega

theorem char_toNat_valid (c : Char) : Nat.isValidChar c.toNat := c.valid

theorem toNat_ofNat_valid {n : Nat} (h : n.isValidChar) :
    (Char.ofNat n).toNat = n := by
  simp [Char.ofNat, h]
  rfl

theorem toLowerVal_valid (c : Char) : Nat.isValidChar (toLowerVal c.toNat) := by
  have hv := char_toNat_valid c
  unfold Nat.isValidChar at hv ⊢
  unfold toLowerVal
  split_ifs <;> omega

theorem toLowerUni_idem (c : Char) : toLowerUni (toLowerUni c) = toLowerUni c := by
  unfold toLowerUni
  rw [toNat_ofNat_valid (toLowerVal_valid c), toLowerVal_idem]

theorem normWords_lowerStr (raw : String) :
    normWords (lowerStr raw) = normWords raw := by
  have h : (lowerStr raw).data.map toLowerUni = raw.data.map toLowerUni := by
    show (raw.data.map toLowerUni).map toLowerUni = raw.data.map toLowerUni
    rw [List.map_map]
    exact List.map_congr_left (fun a _ => toLowerUni_idem a)
  unfold normWords
  rw [h]

theorem mem_markAux_class (prev : Option Char) (l : List Char) (c : Char)
    (h : some c ∈ markAux prev l) : (isWordChar c || c == '-') = true := by
  induction l generalizing prev with
  | nil => simp [markAux] at h
  | cons d rest ih =>
      rw [markAux] at h
      rcases List.mem_cons.1 h with h' | h'
      · by_cases hk : keepOne prev d rest.head? = true
        · rw [if_pos hk] at h'
          have hcd : c = d := Option.some.inj h'
          subst hcd
          unfold keepOne at hk
          have hk' : isWordChar c = true
              ∨ (c == '-' && isWordOpt prev && isWordOpt rest.head?) = true := by
            simpa using hk
          rcases hk' with h1 | h1
          · simp [h1]
          · have h2 : (c == '-') = true := by
              simp only [Bool.and_eq_true] at h1
              exact h1.1.1
            simp [h2]
        · rw [if_neg hk] at h'
          cases h'
      · exact ih (some d) h'

theorem mem_markAux_mem (prev : Option Char) (l : List Char) (c : Char)
    (h : some c ∈ markAux prev l) : c ∈ l := by
  induction l generalizing prev with
  | nil => simp [markAux] at h
  | cons d rest ih =>
      rw [markAux] at h
      rcases List.mem_cons.1 h with h' | h'
      · by_cases hk : keepOne prev d rest.head? = true
        · rw [if_pos hk] at h'
          rw [Option.some.inj h']
          exact List.mem_cons_self d rest
        · rw [if_neg hk] at h'
          cases h'
      · exact List.mem_cons_of_mem d (ih (some d) h')

theorem mem_groupTokens_sub : ∀ (l : List (Option Char)) (t : List Char),
    t ∈ groupTokens l → t ≠ [] ∧ ∀ c ∈ t, some c ∈ l
  | [], t, ht => by simp [groupTokens] at ht
  | none :: rest, t, ht => by
      rw [groupTokens] at ht
      rcases mem_groupTokens_sub rest t ht with ⟨h1, h2⟩
      exact ⟨h1, fun c hc => List.mem_cons_of_mem _ (h2 c hc)⟩
  | some c :: none :: rest, t, ht => by
      rw [groupTokens] at ht
      rcases List.mem_cons.1 ht with h' | h'
      · subst h'
        refine ⟨by simp, ?_⟩
        intro c' hc'
        have : c' = c := by simpa using hc'
        subst this
        exact List.mem_cons_self _ _
      · rcases mem_groupTokens_sub rest t h' with ⟨h1, h2⟩
        exact ⟨h1, fun c' hc' =>
          List.mem_cons_of_mem _ (List.mem_cons_of_mem _ (h2 c' hc'))⟩
  | [some c], t, ht => by
      rw [groupTokens] at ht
      have : t = [c] := by simpa using ht
      subst this
      refine ⟨by simp, ?_⟩
      intro c' hc'
      have : c' = c := by simpa using hc'
      subst this
      exact List.mem_cons_self _ _
  | some c :: some d :: rest, t, ht => by
      rw [groupTokens] at ht
      cases hg : groupTokens (some d :: rest) with
      | nil =>
          rw [hg] at ht
          have : t = [c] := by simpa using ht
          subst this
          refine ⟨by simp, ?_⟩
          intro c' hc'
          have : c' = c := by simpa using hc'
          subst this
          exact List.mem_cons_self _ _
      | cons u us =>
          rw [hg] at ht
          rcases List.mem_cons.1 ht with h' | h'
          · subst h'
            refine ⟨by simp, ?_⟩
            intro c' hc'
            rcases List.mem_cons.1 hc' with h'' | h''
            · rw [h'']
              exact List.mem_cons_self _ _
            · have hu : u ∈ groupTokens (some d :: rest) := by
                rw [hg]
                exact List.mem_cons_self _ _
              have := (mem_groupTokens_sub (some d :: rest) u hu).2 c' h''
              exact List.mem_cons_of_mem _ this
          · have htt : t ∈ groupTokens (some d :: rest) := by
              rw [hg]
              exact List.mem_cons_of_mem _ h'
            rcases mem_groupTokens_sub (some d :: rest) t htt with ⟨h1, h2⟩
            exact ⟨h1, fun c' hc' => List.mem_cons_of_mem _ (h2 c' hc')⟩

/-! ## String append helpers -/

theorem str_data_append (a b : String) : (a ++ b).data = a.data ++ b.data := by
  cases a; cases b; rfl

theorem str_empty_append (u : String) : "" ++ u = u := by
  apply string_ext
  rw [str_data_append]
  simp

/-! ## The claims -/

/-- C2: normalization lower-cases the input, keeps hyphens between word
characters inside one token, discards leading/trailing/standalone hyphens,
merges whitespace runs, strips non-word characters, drops empty tokens
and preserves non-ASCII letters: the quoted concrete examples hold, the
result is invariant under pre-lower-casing, and every output token is
non-empty and consists of lower-case-stable word characters and internal
hyphens only. -/
theorem C2_normalization (raw : String) :
    normWords "-- trailing- -leading - -- ---" = ["trailing", "leading"]
    ∧ normWords "1-2 3--4 -5 6- 7" = ["1-2", "3", "4", "5", "6", "7"]
    ∧ normWords "\n \t some\twhite\nspace  \t \n" = ["some", "white", "space"]
    ∧ normWords "Ünïçödè çháraċtèrs" = ["ünïçödè", "çháraċtèrs"]
    ∧ normWords (lowerStr raw) = normWords raw
    ∧ (∀ w ∈ normWords raw, w ≠ ""
        ∧ ∀ c ∈ w.data, (isWordChar c || c == '-') = true ∧ toLowerUni c = c) := by
  refine ⟨by decide, by decide, by decide, by decide, normWords_lowerStr raw, ?_⟩
  intro w hw
  unfold normWords at hw
  rcases List.mem_map.1 hw with ⟨t, htg, rfl⟩
  rcases mem_groupTokens_sub _ t htg with ⟨hne, hsub⟩
  constructor
  · intro hc
    have ht : t = [] := by simpa using congrArg String.data hc
    exact hne ht
  · intro c hc
    have hct : c ∈ t := hc
    have hmm := hsub c hct
    refine ⟨mem_markAux_class none _ c hmm, ?_⟩
    have hcl : c ∈ raw.data.map toLowerUni := mem_markAux_mem none _ c hmm
    rcases List.mem_map.1 hcl with ⟨c0, _, rfl⟩
    exact toLowerUni_idem c0

theorem C2_normalization_witness :
    ("trailing" ∈ normWords "-- trailing- -leading - -- ---")
    ∧ "trailing" ≠ "" :=
  ⟨by decide,
   ((C2_normalization "-- trailing- -leading - -- ---").2.2.2.2.2 "trailing"
      (by decide)).1⟩

/-- C3: suggestion ranking conditions on at most the last
`MAX_CONTEXT_WORDS = 4` complete words of the partial query, a term
already present in that context window is never suggested again, and on
the history `fox chicken` / `wolf sheep` the query
`wolf fox unknown1 unknown2 unknown3 unknown4` yields exactly one
suggestion: the query with ` chicken` appended. -/
theorem C3_context_window (s : Store) (hook : Hook) (limit : Nat)
    (raw : String) :
    suggestVals historyMax defaultHook DEFAULT_LIMIT
        "wolf fox unknown1 unknown2 unknown3 unknown4"
      = ["wolf fox unknown1 unknown2 unknown3 unknown4 chicken"]
    ∧ (contextOf (queryWords hook raw) (isLastComplete raw)).length
        ≤ MAX_CONTEXT_WORDS
    ∧ (∀ it, it ∈ suggestItems s hook limit raw →
        it.term ∉ contextOf (queryWords hook raw) (isLastComplete raw)) := by
  refine ⟨by decide, ?_, ?_⟩
  · unfold contextOf lastN
    split <;> (rw [List.length_drop]; omega)
  · intro it hit hmem
    exact suggestItems_term_not_mem s hook limit raw it hit
      (contextOf_subset _ _ _ hmem)

theorem C3_context_window_witness :
    (Item.mk "wolf fox unknown1 unknown2 unknown3 unknown4 chicken" "chicken"
        ∈ suggestItems historyMax defaultHook 4
            "wolf fox unknown1 unknown2 unknown3 unknown4")
    ∧ "chicken" ∉ contextOf
        (queryWords defaultHook "wolf fox unknown1 unknown2 unknown3 unknown4")
        (isLastComplete "wolf fox unknown1 unknown2 unknown3 unknown4") :=
  ⟨by decide,
   (C3_context_window historyMax defaultHook 4
      "wolf fox unknown1 unknown2 unknown3 unknown4").2.2
     (Item.mk "wolf fox unknown1 unknown2 unknown3 unknown4 chicken" "chicken")
     (by decide)⟩

/-- C4: extension candidates that co-occur with the complete context words
rank strictly above candidates supported only by the auto-completed word
(the ranked list is pairwise ordered by the tiered comparator `extLe`,
whose primary key is context co-occurrence strength), and on the history
`dog wolf` / `cat chicken` the query `dog ca` returns exactly
`dog cat`, `dog cat wolf`, `dog cat chicken` in that order. -/
theorem C4_tier_ranking (s : Store) (excl C : List String)
    (comp : Option String) :
    suggestVals historyTiers defaultHook DEFAULT_LIMIT "dog ca"
      = ["dog cat", "dog cat wolf", "dog cat chicken"]
    ∧ (extTerms s excl C comp).Pairwise
        (fun a b => extLe s C comp a b = true) := by
  refine ⟨by decide, ?_⟩
  unfold extTerms
  exact pairwise_sortBy _ (extLe_total s C comp) (extLe_trans s C comp) _

/-- C7: a partial query that normalizes to zero words (in particular the
empty string) yields an empty suggestion list without error, while calling
the action without the `q` argument is a validation error: the two cases
are distinguished. -/
theorem C7_empty_vs_missing (s : Store) (hook : Hook) (limit : Nat)
    (raw : String) :
    discovery_search_suggest s hook limit none
        = Except.error "ValidationError: q is required"
    ∧ discovery_search_suggest s hook limit (some "") = Except.ok []
    ∧ (queryWords hook raw = [] →
        discovery_search_suggest s hook limit (some raw) = Except.ok []) := by
  refine ⟨rfl, ?_, ?_⟩
  · show Except.ok (suggestVals s hook limit "") = Except.ok []
    have h : suggestRaw s hook "" = [] := rfl
    simp [suggestVals, suggestItems, h]
  · intro h
    show Except.ok (suggestVals s hook limit raw) = Except.ok []
    have hraw : suggestRaw s hook raw = [] := by
      unfold suggestRaw
      rw [h]
      rfl
    simp [suggestVals, suggestItems, hraw]

theorem C7_empty_vs_missing_witness :
    queryWords defaultHook " " = []
    ∧ discovery_search_suggest emptyStore defaultHook 4 (some " ")
        = Except.ok [] :=
  ⟨by decide,
   (C7_empty_vs_missing emptyStore defaultHook 4 " ").2.2 (by decide)⟩

/-- C8: every returned suggestion's `value` is reconstructed against the
original raw query text: either the candidate is appended to the raw text
(extension case, with a separating space exactly when the raw text does
not end in whitespace), or the trailing chunk of the raw text — the
incomplete last word together with its stripped characters — is replaced
by text ending in the candidate (auto-complete case); the prior words of
the raw text are preserved verbatim. -/
theorem C8_value_reconstruction (s : Store) (hook : Hook) (limit : Nat)
    (raw : String) (it : Item) (h : it ∈ suggestItems s hook limit raw) :
    it.value = extValue raw it.term
    ∨ ∃ mid, it.value = dropLastChunk raw ++ (mid ++ it.term) := by
  have h' : it ∈ suggestRaw s hook raw := List.mem_of_mem_take h
  unfold suggestRaw at h'
  by_cases h0 : (queryWords hook raw).isEmpty = true
  · simp [h0] at h'
  · simp only [h0, Bool.false_eq_true, if_false] at h'
    by_cases hcomp : isLastComplete raw = true
    · simp only [hcomp, if_true] at h'
      rcases List.mem_map.1 h' with ⟨o, _, rfl⟩
      exact Or.inl rfl
    · simp only [hcomp, Bool.false_eq_true, if_false] at h'
      cases hac : acTerms s (queryWords hook raw)
          (((queryWords hook raw).getLast?).getD "") with
      | nil =>
          rw [hac] at h'
          rcases List.mem_map.1 h' with ⟨o, _, rfl⟩
          exact Or.inl rfl
      | cons t ts =>
          rw [hac] at h'
          rcases List.mem_append.1 h' with h'' | h''
          · rcases List.mem_map.1 h'' with ⟨u, _, rfl⟩
            refine Or.inr ⟨"", ?_⟩
            show acValue raw u = dropLastChunk raw ++ ("" ++ u)
            rw [str_empty_append]
            rfl
          · rcases List.mem_map.1 h'' with ⟨o, _, rfl⟩
            refine Or.inr ⟨t ++ " ", ?_⟩
            show acValue raw t ++ " " ++ o
                = dropLastChunk raw ++ (t ++ " " ++ o)
            apply string_ext
            simp [acValue, str_data_append]

theorem C8_value_reconstruction_witness :
    (Item.mk "cat mouse" "mouse"
        ∈ suggestItems historyStripped defaultHook 4 "cat mo!")
    ∧ ((Item.mk "cat mouse" "mouse").value = extValue "cat mo!" "mouse"
        ∨ ∃ mid, (Item.mk "cat mouse" "mouse").value
            = dropLastChunk "cat mo!" ++ (mid ++ "mouse")) :=
  ⟨by decide,
   C8_value_reconstruction historyStripped defaultHook 4 "cat mo!"
     (Item.mk "cat mouse" "mouse") (by decide)⟩

/-- C9: asking for the last word of a query that normalizes to zero words
surfaces the error (`none`, the propagated `IndexError`) — exactly in
that case — while for every query with at least one surviving word the
last word is the final token of the normalized sequence; in particular
`"  \t \n  "` has no last word and `"dog fox"` has last word `fox`. -/
theorem C9_last_word (hook : Hook) (raw : String) :
    (last_word hook raw = none ↔ queryWords hook raw = [])
    ∧ (∀ l w, queryWords hook raw = l ++ [w] → last_word hook raw = some w)
    ∧ last_word defaultHook "  \t \n  " = none
    ∧ last_word defaultHook "dog fox" = some "fox" := by
  refine ⟨?_, ?_, by decide, by decide⟩
  · unfold last_word
    exact List.getLast?_eq_none_iff
  · intro l w h
    unfold last_word
    rw [h]
    exact List.getLast?_concat l

theorem C9_last_word_witness :
    queryWords defaultHook "dog fox" = ["dog"] ++ ["fox"]
    ∧ last_word defaultHook "dog fox" = some "fox" :=
  ⟨by decide,
   (C9_last_word defaultHook "dog fox").2.1 ["dog"] "fox" (by decide)⟩

/-- C10: an auto-complete candidate is always a proper extension of the
typed last word — it is a stored term that starts with the typed word,
differs from it, and is strictly longer — and no suggested item ever
repeats the query's last word; on the history `cat` / `caterpillar`, the
query `cat` yields only `caterpillar`. -/
theorem C10_no_self_completion (s : Store) (hook : Hook) (limit : Nat)
    (raw p t : String) (W : List String) :
    suggestVals historyPseudo defaultHook DEFAULT_LIMIT "cat" = ["caterpillar"]
    ∧ (t ∈ acTerms s W p → p ∈ W →
        t ≠ p ∧ isPre p t = true ∧ p.length < t.length)
    ∧ (∀ it, it ∈ suggestItems s hook limit raw →
        last_word hook raw ≠ some it.term) := by
  refine ⟨by decide, ?_, ?_⟩
  · intro ht hp
    rcases mem_acTerms s W p t ht with ⟨hpre, hnot⟩
    have htp : t ≠ p := fun hc => hnot (hc ▸ hp)
    refine ⟨htp, hpre, ?_⟩
    unfold isPre at hpre
    have htake : t.data.take p.data.length = p.data := of_decide_eq_true hpre
    have hlen : p.data.length ≤ t.data.length := by
      have hl := congrArg List.length htake
      rw [List.length_take] at hl
      omega
    rcases Nat.lt_or_ge p.data.length t.data.length with h | h
    · exact h
    · exfalso
      have heq : p.data.length = t.data.length := Nat.le_antisymm hlen h
      have hfull : t.data.take p.data.length = t.data := by
        rw [heq]
        exact List.take_length t.data
      rw [hfull] at htake
      exact htp (string_ext htake)
  · intro it hit hc
    have hterm : it.term ∉ queryWords hook raw :=
      suggestItems_term_not_mem s hook limit raw it hit
    unfold last_word at hc
    have hmem : it.term ∈ (queryWords hook raw).getLast? := by
      rw [hc]
      rfl
    rcases List.mem_getLast?_eq_getLast hmem with ⟨hne, heq⟩
    exact hterm (heq ▸ List.getLast_mem hne)

theorem C10_no_self_completion_witness :
    ("caterpillar" ∈ acTerms historyPseudo ["cat"] "cat")
    ∧ ("cat" ∈ (["cat"] : List String))
    ∧ ("caterpillar" ≠ "cat" ∧ isPre "cat" "caterpillar" = true
        ∧ "cat".length < "caterpillar".length) :=
  ⟨by decide, by decide,
   (C10_no_self_completion historyPseudo defaultHook 4 "cat" "cat"
      "caterpillar" ["cat"]).2.1 (by decide) (by decide)⟩

end Discovery
